import Mathlib

/-!
Verification of the Z2Pack WCC / surface-convergence engine
(`src/z2pack/__init__.py`) against its natural-language specification.

The Python code is shallowly embedded:
* floats become rationals (`ℚ`) for the combinatorial/bookkeeping parts and
  reals (`ℝ`) where transcendental functions (`sin`, `log`, `arg`) appear;
* Python `x % 1` (floor-based modulus, divisor `1 > 0`) becomes `Int.fract`;
* Python `int(...)` (truncation toward zero) becomes `pyInt`;
* mutable list state becomes explicit state records passed through step
  functions; the unbounded `while` loops become fuel-indexed iteration where
  `none` means the loop has not terminated within the given fuel;
* Python exceptions become `Except` / `Option` results.
-/

namespace Z2Pack

/-- Python `int(q)`: truncation toward zero. -/
def pyInt (q : ℚ) : ℤ :=
  if q < 0 then ⌈q⌉ else ⌊q⌋

/-- Embedding of `Z2PackPlane._check_single_direction(wcc, gap)`:

    for wcc_val in wcc:
        if(min(abs(1 + wcc_val - gap) % 1, abs(1 - gap + wcc_val) % 1) < self._gap_tol):
            return False
    return True

The two arguments of `min` are kept exactly as they appear in the source
(note that `1 + wcc_val - gap` and `1 - gap + wcc_val` are the same rational
number). -/
def check_single_direction (gapTol : ℚ) (wcc : List ℚ) (gap : ℚ) : Bool :=
  match wcc with
  | [] => true
  | wcc_val :: rest =>
      if min (Int.fract |1 + wcc_val - gap|) (Int.fract |1 - gap + wcc_val|) < gapTol then
        false
      else
        check_single_direction gapTol rest gap

/-- One triangular kernel of `Z2PackPlane._convsum` (with the default
`N0 = 7`, never overridden in the source): for a list entry `x`,

    index = int(N*x)
    for i in range(0, N0): val[(index - i) % N] += 1 - (i/N0)
    for i in range(1, N0): val[(index + i) % N] += 1 - (i/N0)

`sgn` is `+1` for `listA` entries and `-1` for `listB` entries. -/
def addTriangle (N : ℤ) (sgn : ℚ) (x : ℚ) (val : ℤ → ℚ) : ℤ → ℚ :=
  let index := pyInt ((N : ℚ) * x)
  let val1 := (List.range 7).foldl
    (fun v i =>
      Function.update v ((index - (i : ℤ)) % N)
        (v ((index - (i : ℤ)) % N) + sgn * (1 - (i : ℚ) / 7))) val
  (List.range' 1 6).foldl
    (fun v i =>
      Function.update v ((index + (i : ℤ)) % N)
        (v ((index + (i : ℤ)) % N) + sgn * (1 - (i : ℚ) / 7))) val1

/-- Embedding of `Z2PackPlane._convsum(listA, listB, epsilon, N0 = 7)`:
`N = N0 * int(1/(2*epsilon))` histogram buckets, a triangular kernel added
for each entry of `listA` and subtracted for each entry of `listB`, then
`sum(abs(val)) / N0`. -/
def convsum (listA listB : List ℚ) (epsilon : ℚ) : ℚ :=
  let N : ℤ := 7 * pyInt (1 / (2 * epsilon))
  let valA := listA.foldl (fun v x => addTriangle N 1 x v) (fun _ => (0 : ℚ))
  let val := listB.foldl (fun v x => addTriangle N (-1) x v) valA
  ((List.range N.toNat).map (fun k => |val (k : ℤ)|)).sum / 7

/-- Embedding of `Z2PackPlane._convcheck(x, y)`: `False` when the two lists
have different lengths (the printed warning is ignored by the embedding),
otherwise `convsum(x, y, wcc_tol) < 1` — the threshold in the source is the
constant `1`, `wcc_tol` only enters as the kernel parameter of `_convsum`. -/
def convcheck (x y : List ℚ) (wccTol : ℚ) : Bool :=
  if x.length ≠ y.length then false
  else decide (convsum x y wccTol < 1)

/-- Outcome of the `_getwcc` refinement loop: the `success` break
(`_convcheck` satisfied) or the `capped` break (`niter > max_iter`); in both
cases the source returns the latest WCC list (as `sorted(x)`). -/
inductive GetwccOutcome where
  | success (x : List ℚ)
  | capped (x : List ℚ)
deriving DecidableEq

/-- Step-count update at the top of the `_getwcc` loop body:

    if(niter % 2 == 1 and min_sv < 0.5): N += 4
    else: N += 2
-/
def nextN (N niter : ℕ) (min_sv : ℚ) : ℕ :=
  if niter % 2 = 1 ∧ min_sv < 1/2 then N + 4 else N + 2

/-- Embedding of the `while(True)` refinement loop of `Z2PackPlane._getwcc`.
`trywcc n` abstracts `self._trywcc(self._M_handle(kx, n))` (the WCC list and
minimum singular value computed at `n` steps; deterministic in `n` for a
fixed line, per the spec of the overlap-matrix provider).  State: current
`N`, iteration count `niter`, latest WCC list `x`, latest `min_sv`. -/
def getwccLoop (trywcc : ℕ → List ℚ × ℚ) (wccTol : ℚ) (maxIter : ℕ)
    (N niter : ℕ) (x : List ℚ) (min_sv : ℚ) : GetwccOutcome :=
  if convcheck (trywcc (nextN N niter min_sv)).1 x wccTol then
    .success (trywcc (nextN N niter min_sv)).1
  else if maxIter < niter + 1 then
    .capped (trywcc (nextN N niter min_sv)).1
  else
    getwccLoop trywcc wccTol maxIter (nextN N niter min_sv) (niter + 1)
      (trywcc (nextN N niter min_sv)).1 (trywcc (nextN N niter min_sv)).2
termination_by maxIter + 1 - niter
decreasing_by omega

/-- Embedding of `Z2PackPlane._getwcc(kx)`: initial solve at `N = 8`, then
either no iteration (`no_iter`) or the refinement loop; the result is the
latest WCC list, sorted ascending. -/
def getwcc (trywcc : ℕ → List ℚ × ℚ) (wccTol : ℚ) (maxIter : ℕ)
    (noIter : Bool) : List ℚ :=
  let p := trywcc 8
  if noIter then (p.1).insertionSort (· ≤ ·)
  else
    match getwccLoop trywcc wccTol maxIter 8 0 p.1 p.2 with
    | .success x => x.insertionSort (· ≤ ·)
    | .capped x => x.insertionSort (· ≤ ·)

/-- Specification-side description of how the `_getwcc` loop stops, with the
stopping conditions written out explicitly: a `success` stop requires the new
and previous WCC lists to have equal length and the `_convsum` metric value
(kernel parameter `wccTol`) to be below the constant `1`; a `capped` stop
requires the convergence check to fail and `niter + 1 > max_iter`; otherwise
the loop steps with the updated state.  In both terminal cases the loop
carries out the latest `trywcc` result. -/
inductive LoopStops (trywcc : ℕ → List ℚ × ℚ) (wccTol : ℚ) (maxIter : ℕ) :
    ℕ → ℕ → List ℚ → ℚ → GetwccOutcome → Prop where
  | success {N niter : ℕ} {x : List ℚ} {min_sv : ℚ}
      (hlen : (trywcc (nextN N niter min_sv)).1.length = x.length)
      (hmet : convsum (trywcc (nextN N niter min_sv)).1 x wccTol < 1) :
      LoopStops trywcc wccTol maxIter N niter x min_sv
        (.success (trywcc (nextN N niter min_sv)).1)
  | capped {N niter : ℕ} {x : List ℚ} {min_sv : ℚ}
      (hfail : ¬((trywcc (nextN N niter min_sv)).1.length = x.length ∧
          convsum (trywcc (nextN N niter min_sv)).1 x wccTol < 1))
      (hcap : maxIter < niter + 1) :
      LoopStops trywcc wccTol maxIter N niter x min_sv
        (.capped (trywcc (nextN N niter min_sv)).1)
  | step {N niter : ℕ} {x : List ℚ} {min_sv : ℚ} {r : GetwccOutcome}
      (hfail : ¬((trywcc (nextN N niter min_sv)).1.length = x.length ∧
          convsum (trywcc (nextN N niter min_sv)).1 x wccTol < 1))
      (hcont : niter + 1 ≤ maxIter)
      (htail : LoopStops trywcc wccTol maxIter (nextN N niter min_sv) (niter + 1)
          (trywcc (nextN N niter min_sv)).1 (trywcc (nextN N niter min_sv)).2 r) :
      LoopStops trywcc wccTol maxIter N niter x min_sv r

theorem convcheck_eq_true_iff (x y : List ℚ) (wccTol : ℚ) :
    convcheck x y wccTol = true ↔ (x.length = y.length ∧ convsum x y wccTol < 1) := by
  unfold convcheck
  split <;> simp_all

theorem loopStops_getwccLoop (trywcc : ℕ → List ℚ × ℚ) (wccTol : ℚ) (maxIter : ℕ)
    (N niter : ℕ) (x : List ℚ) (min_sv : ℚ) :
    LoopStops trywcc wccTol maxIter N niter x min_sv
      (getwccLoop trywcc wccTol maxIter N niter x min_sv) := by
  have H : ∀ fuel N niter x min_sv, maxIter + 1 - niter ≤ fuel →
      LoopStops trywcc wccTol maxIter N niter x min_sv
        (getwccLoop trywcc wccTol maxIter N niter x min_sv) := by
    intro fuel
    induction fuel with
    | zero =>
      intro N niter x min_sv h
      unfold getwccLoop
      by_cases hconv : convcheck (trywcc (nextN N niter min_sv)).1 x wccTol = true
      · rw [if_pos hconv]
        rcases (convcheck_eq_true_iff _ _ _).mp hconv with ⟨h1, h2⟩
        exact LoopStops.success h1 h2
      · have hcap : maxIter < niter + 1 := by omega
        rw [if_neg hconv, if_pos hcap]
        exact LoopStops.capped (fun hc => hconv ((convcheck_eq_true_iff _ _ _).mpr hc)) hcap
    | succ n ih =>
      intro N niter x min_sv h
      unfold getwccLoop
      by_cases hconv : convcheck (trywcc (nextN N niter min_sv)).1 x wccTol = true
      · rw [if_pos hconv]
        rcases (convcheck_eq_true_iff _ _ _).mp hconv with ⟨h1, h2⟩
        exact LoopStops.success h1 h2
      · rw [if_neg hconv]
        by_cases hcap : maxIter < niter + 1
        · rw [if_pos hcap]
          exact LoopStops.capped (fun hc => hconv ((convcheck_eq_true_iff _ _ _).mpr hc)) hcap
        · rw [if_neg hcap]
          exact LoopStops.step
            (fun hc => hconv ((convcheck_eq_true_iff _ _ _).mpr hc))
            (by omega)
            (ih _ _ _ _ (by omega))
  exact H (maxIter + 1 - niter) N niter x min_sv le_rfl

theorem getwccLoop_of_loopStops (trywcc : ℕ → List ℚ × ℚ) (wccTol : ℚ) (maxIter : ℕ)
    (N niter : ℕ) (x : List ℚ) (min_sv : ℚ) (r : GetwccOutcome)
    (h : LoopStops trywcc wccTol maxIter N niter x min_sv r) :
    getwccLoop trywcc wccTol maxIter N niter x min_sv = r := by
  induction h with
  | success hlen hmet =>
    unfold getwccLoop
    rw [if_pos ((convcheck_eq_true_iff _ _ _).mpr ⟨hlen, hmet⟩)]
  | capped hfail hcap =>
    unfold getwccLoop
    rw [if_neg, if_pos hcap]
    intro hc
    exact hfail ((convcheck_eq_true_iff _ _ _).mp hc)
  | step hfail hcont htail ih =>
    unfold getwccLoop
    rw [if_neg, if_neg (by omega)]
    · exact ih
    · intro hc
      exact hfail ((convcheck_eq_true_iff _ _ _).mp hc)

/-- C2 (amended): the `_getwcc` refinement loop stops successfully exactly
when the convergence check holds at the current step — that is, when the new
and previous WCC lists have equal length and the `_convsum` metric value
(computed with kernel parameter `wcc_tol`) is below the constant `1`, not
below `wcc_tol` — and stops with the non-convergence `capped` outcome
(still carrying the latest result) exactly when the check fails and the
iteration count exceeds `max_iter`. -/
theorem getwccLoop_stops_iff (trywcc : ℕ → List ℚ × ℚ) (wccTol : ℚ) (maxIter : ℕ)
    (N niter : ℕ) (x : List ℚ) (min_sv : ℚ) (r : GetwccOutcome) :
    getwccLoop trywcc wccTol maxIter N niter x min_sv = r ↔
      LoopStops trywcc wccTol maxIter N niter x min_sv r := by
  constructor
  · rintro rfl
    exact loopStops_getwccLoop trywcc wccTol maxIter N niter x min_sv
  · exact getwccLoop_of_loopStops trywcc wccTol maxIter N niter x min_sv r

set_option maxRecDepth 40000 in
/-- C2 (counterexample): with `wcc_tol = 1/4`, previous WCC list `[0]` and a
provider returning `[1/4]`, the loop stops successfully on its first
iteration although the Convergence Metric value `34/49` is not below
`wcc_tol` — the source compares the metric against the constant `1`. -/
theorem getwccLoop_success_metric_not_below_tol :
    getwccLoop (fun _ => ([1/4], 1)) (1/4) 10 8 0 [0] 1 =
      GetwccOutcome.success [1/4] ∧
    ¬ (convsum [1/4] [0] (1/4) < 1/4) := by
  constructor
  · have h : convcheck ((fun _ : ℕ => ([(1 : ℚ)/4], (1 : ℚ))) (nextN 8 0 1)).1 [0] (1/4) = true := by
      with_unfolding_all decide
    unfold getwccLoop
    rw [if_pos h]
  · with_unfolding_all decide

/-- Embedding of `Z2PackPlane._gapfind(x)`:

    x = sorted(x); gapsize = 0; gappos = 0; N = len(x)
    for i in range(0, N - 1):
        temp = x[i + 1] - x[i]
        if(temp > gapsize): gapsize = temp; gappos = i
    temp = x[0] - x[-1] + 1
    if(temp > gapsize): gapsize = temp; gappos = N - 1
    return (x[gappos] + gapsize / 2) % 1
-/
def gapfind (x : List ℚ) : ℚ :=
  let xs := x.insertionSort (· ≤ ·)
  let N := xs.length
  let p := (List.range (N - 1)).foldl
    (fun gp i =>
      if gp.1 < xs.getD (i + 1) 0 - xs.getD i 0 then (xs.getD (i + 1) 0 - xs.getD i 0, i)
      else gp)
    ((0 : ℚ), (0 : ℕ))
  let q :=
    if p.1 < xs.getD 0 0 - xs.getD (N - 1) 0 + 1 then (xs.getD 0 0 - xs.getD (N - 1) 0 + 1, N - 1)
    else p
  Int.fract (xs.getD q.2 0 + q.1 / 2)

/-- Width of the `i`-th circular gap of the (sorted) list `xs`: the
consecutive difference for `i < length - 1`, and the wrap-around gap from the
last element back to the first (shifted by the period `1`) for
`i = length - 1`. -/
def circGap (xs : List ℚ) (i : ℕ) : ℚ :=
  if i + 1 < xs.length then xs.getD (i + 1) 0 - xs.getD i 0
  else xs.getD 0 0 - xs.getD (xs.length - 1) 0 + 1

theorem gapfold_spec (g : ℕ → ℚ) (m : ℕ) (hm : 1 ≤ m) (hg : ∀ i, i < m → 0 ≤ g i) :
    ∃ v s, (List.range m).foldl (fun gp i => if gp.1 < g i then (g i, i) else gp)
        ((0 : ℚ), (0 : ℕ)) = (v, s)
      ∧ s < m ∧ v = g s ∧ (∀ j, j < m → g j ≤ v) ∧ (∀ j, j < s → g j < v) := by
  induction m with
  | zero => omega
  | succ m ih =>
    rcases Nat.eq_zero_or_pos m with hm0 | hm1
    · subst hm0
      simp only [List.range_succ, List.range_zero, List.nil_append, List.foldl_cons,
        List.foldl_nil]
      by_cases h0 : ((0 : ℚ), (0 : ℕ)).1 < g 0
      · refine ⟨g 0, 0, by rw [if_pos h0], by omega, rfl, ?_, by omega⟩
        intro j hj
        have : j = 0 := by omega
        subst this
        exact le_refl _
      · refine ⟨0, 0, by rw [if_neg h0], by omega, ?_, ?_, by omega⟩
        · have h1 := hg 0 (by omega)
          simp only [not_lt] at h0
          exact le_antisymm h1 (by simpa using h0)
        · intro j hj
          have : j = 0 := by omega
          subst this
          simpa using h0
    · rcases ih hm1 (fun i hi => hg i (by omega)) with ⟨v, s, heq, hs, hv, hmax, hfirst⟩
      rw [List.range_succ, List.foldl_append, heq]
      simp only [List.foldl_cons, List.foldl_nil]
      by_cases hstep : ((v, s) : ℚ × ℕ).1 < g m
      · refine ⟨g m, m, by rw [if_pos hstep], by omega, rfl, ?_, ?_⟩
        · intro j hj
          rcases Nat.lt_succ_iff_lt_or_eq.mp hj with hj' | rfl
          · exact le_of_lt (lt_of_le_of_lt (hmax j hj') (by simpa using hstep))
          · exact le_refl _
        · intro j hj
          exact lt_of_le_of_lt (hmax j hj) (by simpa using hstep)
      · refine ⟨v, s, by rw [if_neg hstep], by omega, hv, ?_, hfirst⟩
        intro j hj
        rcases Nat.lt_succ_iff_lt_or_eq.mp hj with hj' | rfl
        · exact hmax j hj'
        · simpa using not_lt.mp hstep

/-- C8: for every input list with at least two elements, `_gapfind` returns
the midpoint (mod 1) of the widest circular gap of the ascending-sorted list
(wrap-around gap included); no other gap exceeds the selected one, and on
ties the gap encountered first in sorted order wins (all earlier gaps are
strictly narrower). -/
theorem gapfind_widest_gap_midpoint (x : List ℚ) (hx : 2 ≤ x.length) :
    ∃ sel, sel < x.length ∧
      (∀ j, j < x.length → circGap (x.insertionSort (· ≤ ·)) j
          ≤ circGap (x.insertionSort (· ≤ ·)) sel) ∧
      (∀ j, j < sel → circGap (x.insertionSort (· ≤ ·)) j
          < circGap (x.insertionSort (· ≤ ·)) sel) ∧
      gapfind x = Int.fract ((x.insertionSort (· ≤ ·)).getD sel 0
          + circGap (x.insertionSort (· ≤ ·)) sel / 2) := by
  classical
  set xs := x.insertionSort (· ≤ ·) with hxs
  have hlen : xs.length = x.length := (List.perm_insertionSort (· ≤ ·) x).length_eq
  have hsorted : xs.Sorted (· ≤ ·) := List.sorted_insertionSort (· ≤ ·) x
  have hN : 2 ≤ xs.length := by omega
  set N := xs.length with hNdef
  -- nonnegativity of the internal gaps of the sorted list
  have hgap_nonneg : ∀ i, i < N - 1 → 0 ≤ xs.getD (i + 1) 0 - xs.getD i 0 := by
    intro i hi
    have h1 : i < xs.length := by omega
    have h2 : i + 1 < xs.length := by omega
    rw [List.getD_eq_getElem xs 0 h1, List.getD_eq_getElem xs 0 h2, sub_nonneg]
    exact hsorted.rel_get_of_lt (a := ⟨i, h1⟩) (b := ⟨i + 1, h2⟩) (by simp)
  rcases gapfold_spec (fun i => xs.getD (i + 1) 0 - xs.getD i 0) (N - 1) (by omega)
      hgap_nonneg with ⟨v, s, heq, hs, hv, hmax, hfirst⟩
  -- the internal gaps agree with circGap below N - 1
  have hcirc_int : ∀ j, j < N - 1 → circGap xs j = xs.getD (j + 1) 0 - xs.getD j 0 := by
    intro j hj
    unfold circGap
    rw [if_pos (by omega)]
  have hcirc_wrap : circGap xs (N - 1) = xs.getD 0 0 - xs.getD (N - 1) 0 + 1 := by
    unfold circGap
    rw [if_neg (by omega)]
  have hval : gapfind x =
      Int.fract (xs.getD (if v < xs.getD 0 0 - xs.getD (N - 1) 0 + 1 then N - 1 else s) 0 +
        (if v < xs.getD 0 0 - xs.getD (N - 1) 0 + 1 then xs.getD 0 0 - xs.getD (N - 1) 0 + 1
         else v) / 2) := by
    unfold gapfind
    simp only []
    rw [← hxs, ← hNdef, heq]
    by_cases hw : ((v, s) : ℚ × ℕ).1 < xs.getD 0 0 - xs.getD (N - 1) 0 + 1
    · rw [if_pos hw, if_pos (by simpa using hw), if_pos (by simpa using hw)]
    · rw [if_neg hw, if_neg (by simpa using hw), if_neg (by simpa using hw)]
  by_cases hw : v < xs.getD 0 0 - xs.getD (N - 1) 0 + 1
  · refine ⟨N - 1, by omega, ?_, ?_, ?_⟩
    · intro j hj
      rw [hcirc_wrap]
      rcases Nat.lt_or_ge j (N - 1) with hj' | hj'
      · rw [hcirc_int j hj']
        rw [hv] at hw
        exact le_of_lt (lt_of_le_of_lt (hv ▸ hmax j hj') hw)
      · have : j = N - 1 := by omega
        subst this
        rw [hcirc_wrap]
    · intro j hj
      rw [hcirc_wrap, hcirc_int j (by omega)]
      exact lt_of_le_of_lt (hmax j (by omega)) hw
    · rw [hval, if_pos hw, if_pos hw, hcirc_wrap]
  · refine ⟨s, by omega, ?_, ?_, ?_⟩
    · intro j hj
      rw [hcirc_int s hs]
      rcases Nat.lt_or_ge j (N - 1) with hj' | hj'
      · rw [hcirc_int j hj']
        exact hv ▸ hmax j hj'
      · have : j = N - 1 := by omega
        subst this
        rw [hcirc_wrap]
        exact hv ▸ not_lt.mp hw
    · intro j hj
      rw [hcirc_int s hs, hcirc_int j (by omega)]
      exact hv ▸ hfirst j hj
    · rw [hval, if_neg hw, if_neg hw, hcirc_int s hs, hv]

/-- Witness for C8 at the concrete input `[0, 1/2]`. -/
theorem gapfind_widest_gap_midpoint_witness :
    2 ≤ ([0, 1/2] : List ℚ).length ∧
    (∃ sel, sel < ([0, 1/2] : List ℚ).length ∧
      (∀ j, j < ([0, 1/2] : List ℚ).length →
        circGap (([0, 1/2] : List ℚ).insertionSort (· ≤ ·)) j
          ≤ circGap (([0, 1/2] : List ℚ).insertionSort (· ≤ ·)) sel) ∧
      (∀ j, j < sel → circGap (([0, 1/2] : List ℚ).insertionSort (· ≤ ·)) j
          < circGap (([0, 1/2] : List ℚ).insertionSort (· ≤ ·)) sel) ∧
      gapfind [0, 1/2] = Int.fract ((([0, 1/2] : List ℚ).insertionSort (· ≤ ·)).getD sel 0
          + circGap (([0, 1/2] : List ℚ).insertionSort (· ≤ ·)) sel / 2)) :=
  ⟨by decide, gapfind_widest_gap_midpoint [0, 1/2] (by decide)⟩

/-- Embedding of the phase extraction in `Z2PackPlane._trywcc`: the Python
expression `(1j * np.log(z) / (2 * np.pi)).real % 1` applied to one
eigenvalue `z` of the accumulated Wilson-loop matrix. -/
noncomputable def wccFromEig (z : ℂ) : ℝ :=
  Int.fract (Complex.I * Complex.log z / (2 * (Real.pi : ℂ))).re

/-- Embedding of the list comprehension in `Z2PackPlane._trywcc`:
`[(1j * np.log(z) / (2 * np.pi)).real % 1 for z in eigs]`. -/
noncomputable def trywccPhases (eigs : List ℂ) : List ℝ :=
  eigs.map wccFromEig

theorem wccFromEig_eq_neg_arg (z : ℂ) :
    wccFromEig z = Int.fract (-(Complex.arg z) / (2 * Real.pi)) := by
  unfold wccFromEig
  congr 1
  have h : Complex.I * Complex.log z = (-(Complex.arg z) : ℝ) + (Real.log (Complex.abs z) : ℝ) * Complex.I := by
    rw [Complex.log]
    push_cast
    ring_nf
    rw [Complex.I_sq]
    ring
  rw [h]
  have h2 : (2 * (Real.pi : ℂ)) = ((2 * Real.pi : ℝ) : ℂ) := by push_cast; ring
  rw [h2, Complex.div_ofReal_re]
  simp [Complex.add_re, Complex.ofReal_re, Complex.mul_re]

/-- C3 (amended): for every eigenvalue `z` of the accumulated Wilson-loop
matrix, the WCC value computed by `_trywcc` equals `(-arg(z) / 2π) mod 1`
(note the sign: `(1j * log z).real = -arg z`), and the returned list contains
exactly one such value per eigenvalue, in order. -/
theorem trywccPhases_eq_neg_arg_phases (eigs : List ℂ) :
    trywccPhases eigs = eigs.map (fun z => Int.fract (-(Complex.arg z) / (2 * Real.pi))) ∧
    (trywccPhases eigs).length = eigs.length := by
  constructor
  · unfold trywccPhases
    exact List.map_congr_left fun z _ => wccFromEig_eq_neg_arg z
  · unfold trywccPhases
    exact List.length_map _ _

/-- C3 (counterexample): at the eigenvalue `z = i` (phase `arg z = π/2`),
the claimed value `(arg(z) / 2π) mod 1 = 1/4` differs from the value the
code computes, `wccFromEig i = 3/4`. -/
theorem trywccPhases_ne_claimed_arg_phase :
    trywccPhases [Complex.I] ≠ [Int.fract (Complex.arg Complex.I / (2 * Real.pi))] := by
  have hcode : wccFromEig Complex.I = 3/4 := by
    rw [wccFromEig_eq_neg_arg, Complex.arg_I]
    have hpi : Real.pi ≠ 0 := Real.pi_ne_zero
    have : -(Real.pi / 2) / (2 * Real.pi) = -(1/4 : ℝ) := by
      field_simp
      ring
    rw [this]
    have h14 : Int.fract (1/4 : ℝ) = 1/4 := Int.fract_eq_self.mpr (by norm_num)
    rw [show (-(1/4 : ℝ)) = -(1/4 : ℝ) from rfl, Int.fract_neg (by rw [h14]; norm_num), h14]
    norm_num
  have hclaim : Int.fract (Complex.arg Complex.I / (2 * Real.pi)) = 1/4 := by
    rw [Complex.arg_I]
    have hpi : Real.pi ≠ 0 := Real.pi_ne_zero
    have : Real.pi / 2 / (2 * Real.pi) = (1/4 : ℝ) := by
      field_simp
      ring
    rw [this]
    exact Int.fract_eq_self.mpr (by norm_num)
  unfold trywccPhases
  simp only [List.map_cons, List.map_nil]
  intro h
  have := List.head_eq_of_cons_eq h
  rw [hcode, hclaim] at this
  norm_num at this

/-- Mutable state of a `Z2PackPlane` during `wcc_calc`: the five parallel
lists `_k_points`, `_wcc_list`, `_gaps`, `_neighbour_check`,
`_string_status`.  A gap is `none` before the line has been solved (Python
initialises `_gaps` with `None`). -/
structure PlaneState where
  k_points : List ℚ
  wcc_list : List (List ℚ)
  gaps : List (Option ℚ)
  neighbour_check : List Bool
  string_status : List Bool
deriving DecidableEq

/-- Configuration options of `wcc_calc` that influence control flow or
values.  `use_pickle` is omitted: `_save` only writes a checkpoint file and
never feeds back into the computation. -/
structure Config where
  no_iter : Bool
  no_neighbour_check : Bool
  wcc_tol : ℚ
  gap_tol : ℚ
  max_iter : ℕ
  min_neighbour_dist : ℚ
  num_strings : ℕ
  verbose : Bool
deriving DecidableEq

/-- Embedding of `Z2PackPlane._check_single_neighbour(i, j)`: despite its
docstring saying `and vice versa`, the source only calls
`_check_single_direction(self._wcc_list[j], self._gaps[i])` — the gap of the
left line against the WCC values of the right line. -/
def check_single_neighbour (gapTol : ℚ) (s : PlaneState) (i j : ℕ) : Bool :=
  check_single_direction gapTol (s.wcc_list.getD j []) ((s.gaps.getD i none).getD 0)

/-- One step of the per-line loop in `wcc_calc`:

    if not(self._string_status[i]):
        self._wcc_list[i] = self._getwcc(kx)
        self._gaps[i] = self._gapfind(self._wcc_list[i])
        self._string_status[i] = True
        self._save()

`solver kx` abstracts `self._getwcc(kx)` (a pure, total function of the
line position — `_getwcc` always returns, cf. `getwccLoop`); `_save` is a
checkpoint write with no effect on the computation. -/
def solveLine (solver : ℚ → List ℚ) (s : PlaneState) (i : ℕ) : PlaneState :=
  if s.string_status.getD i false then s
  else
    { s with
      wcc_list := s.wcc_list.set i (solver (s.k_points.getD i 0))
      gaps := s.gaps.set i (some (gapfind (solver (s.k_points.getD i 0))))
      string_status := s.string_status.set i true }

/-- The full `for i, kx in enumerate(self._k_points)` pass of `wcc_calc`. -/
def solvePass (solver : ℚ → List ℚ) (s : PlaneState) : PlaneState :=
  (List.range s.k_points.length).foldl (solveLine solver) s

/-- Marking a neighbour pair as done:
`self._neighbour_check[i] = True` (used both for a fulfilled condition and
for a pair that reached `min_neighbour_dist` without converging). -/
def markPair (s : PlaneState) (i : ℕ) : PlaneState :=
  { s with neighbour_check := s.neighbour_check.set i true }

/-- The insertion branch of `_check_neighbours`: a new line at the midpoint
between positions `i` and `i + 1`, with fresh unchecked/unsolved entries
inserted into all five parallel lists. -/
def insertLine (s : PlaneState) (i : ℕ) : PlaneState :=
  { s with
    neighbour_check := s.neighbour_check.insertIdx (i + 1) false
    string_status := s.string_status.insertIdx (i + 1) false
    k_points := s.k_points.insertIdx (i + 1)
      ((s.k_points.getD i 0 + s.k_points.getD (i + 1) 0) / 2)
    wcc_list := s.wcc_list.insertIdx (i + 1) []
    gaps := s.gaps.insertIdx (i + 1) none }

/-- Embedding of the scan of `Z2PackPlane._check_neighbours` starting at
pair index `i`: skip already-checked pairs; for the first unchecked pair
with both lines solved, either mark it done (condition fulfilled, or spacing
already below `min_neighbour_dist`) and continue, or insert a bisection line
and return `False`; return `False` immediately when a line of the pair is
unsolved; return `True` when the scan runs off the end. -/
def checkNeighboursFrom (cfg : Config) (s : PlaneState) (i : ℕ) : PlaneState × Bool :=
  if h : i < s.neighbour_check.length then
    if s.neighbour_check.getD i false then
      checkNeighboursFrom cfg s (i + 1)
    else if s.string_status.getD i false && s.string_status.getD (i + 1) false then
      if check_single_neighbour cfg.gap_tol s i (i + 1) then
        checkNeighboursFrom cfg (markPair s i) (i + 1)
      else if s.k_points.getD (i + 1) 0 - s.k_points.getD i 0 < cfg.min_neighbour_dist then
        checkNeighboursFrom cfg (markPair s i) (i + 1)
      else
        (insertLine s i, false)
    else (s, false)
  else (s, true)
termination_by s.neighbour_check.length - i
decreasing_by
  · omega
  · simp only [markPair, List.length_set]; omega
  · simp only [markPair, List.length_set]; omega

/-- Embedding of `Z2PackPlane._check_neighbours()` (scan from pair 0). -/
def checkNeighbours (cfg : Config) (s : PlaneState) : PlaneState × Bool :=
  checkNeighboursFrom cfg s 0

/-- Fuel-indexed embedding of the main `while not (all(self._neighbour_check))`
loop of `wcc_calc`; `none` means the loop has not terminated within `fuel`
iterations.  Note the faithful quirk of the source: when
`no_neighbour_check` is set, the `break` statement sits inside
`if(self._verbose)`, so without `verbose` the loop never breaks. -/
def wccLoop (cfg : Config) (solver : ℚ → List ℚ) : ℕ → PlaneState → Option PlaneState
  | 0, _ => none
  | fuel + 1, s =>
    if s.neighbour_check.all (fun b => b) then some s
    else
      if !cfg.no_neighbour_check then
        wccLoop cfg solver fuel (checkNeighbours cfg (solvePass solver s)).1
      else if cfg.verbose then some (solvePass solver s)
      else wccLoop cfg solver fuel (solvePass solver s)

/-- Initial state of `wcc_calc`:
`k_points = np.linspace(0, 0.5, num_strings, endpoint=True)`, empty WCC
lists, `None` gaps, all neighbour checks and string statuses `False`. -/
def initState (n : ℕ) : PlaneState :=
  { k_points := (List.range n).map (fun i : ℕ => (i : ℚ) / (2 * ((n : ℚ) - 1)))
    wcc_list := List.replicate n []
    gaps := List.replicate n none
    neighbour_check := List.replicate (n - 1) false
    string_status := List.replicate n false }

/-- Python exceptions raised by the prelude of `wcc_calc`. -/
inductive PyErr where
  | valueError
  | nameError
deriving DecidableEq

/-- Module-level names bound by the import block of `z2pack/__init__.py`
(lines 8-18): `string_tools`, `sys`, `time`, `copy`, `pickle`, `np`, `la`,
`plt`.  The name `warnings` is not among them. -/
def importedModuleNames : List String :=
  ["string_tools", "sys", "time", "copy", "pickle", "np", "la", "plt"]

/-- Embedding of `Z2PackPlane.wcc_calc`: the `num_strings` checks (where the
`warnings.warn` call resolves the unbound name `warnings`, raising
`NameError` because it is missing from `importedModuleNames`), state
initialisation, the main loop, and the returned triple
`(self._k_points, self._wcc_list, self._gaps)`. -/
def wccCalc (cfg : Config) (solver : ℚ → List ℚ) (fuel : ℕ) :
    Except PyErr (Option (List ℚ × List (List ℚ) × List (Option ℚ))) :=
  if cfg.num_strings < 2 then .error .valueError
  else if cfg.num_strings < 8 ∧ "warnings" ∉ importedModuleNames then .error .nameError
  else
    match wccLoop cfg solver fuel (initState cfg.num_strings) with
    | none => .ok none
    | some s => .ok (some (s.k_points, s.wcc_list, s.gaps))

theorem solveLine_neighbour_check (f : ℚ → List ℚ) (s : PlaneState) (i : ℕ) :
    (solveLine f s i).neighbour_check = s.neighbour_check := by
  unfold solveLine
  split <;> rfl

theorem solveLine_k_points (f : ℚ → List ℚ) (s : PlaneState) (i : ℕ) :
    (solveLine f s i).k_points = s.k_points := by
  unfold solveLine
  split <;> rfl

theorem foldl_solveLine_neighbour_check (f : ℚ → List ℚ) (L : List ℕ) :
    ∀ s : PlaneState, (L.foldl (solveLine f) s).neighbour_check = s.neighbour_check := by
  induction L with
  | nil => intro s; rfl
  | cons a L ih =>
    intro s
    rw [List.foldl_cons, ih, solveLine_neighbour_check]

theorem foldl_solveLine_k_points (f : ℚ → List ℚ) (L : List ℕ) :
    ∀ s : PlaneState, (L.foldl (solveLine f) s).k_points = s.k_points := by
  induction L with
  | nil => intro s; rfl
  | cons a L ih =>
    intro s
    rw [List.foldl_cons, ih, solveLine_k_points]

theorem solvePass_neighbour_check (f : ℚ → List ℚ) (s : PlaneState) :
    (solvePass f s).neighbour_check = s.neighbour_check :=
  foldl_solveLine_neighbour_check f _ s

theorem solvePass_k_points (f : ℚ → List ℚ) (s : PlaneState) :
    (solvePass f s).k_points = s.k_points :=
  foldl_solveLine_k_points f _ s

theorem wccLoop_none_of_silent_skip (cfg : Config) (solver : ℚ → List ℚ)
    (hskip : cfg.no_neighbour_check = true) (hverb : cfg.verbose = false) :
    ∀ fuel (s : PlaneState), s.neighbour_check.all (fun b => b) = false →
      wccLoop cfg solver fuel s = none := by
  intro fuel
  induction fuel with
  | zero => intro s _; rfl
  | succ n ih =>
    intro s h
    unfold wccLoop
    rw [if_neg (by rw [h]; exact Bool.false_ne_true), hskip, hverb]
    simp only [Bool.not_true, Bool.false_eq_true, if_false]
    exact ih (solvePass solver s) (by rw [solvePass_neighbour_check]; exact h)

/-- Configuration exhibiting the silent-skip bug: `no_neighbour_check` set,
`verbose` unset, all other options at their `Z2PackPlane` defaults except
`num_strings = 8` (the smallest value passing the prelude checks). -/
def silentCfg : Config :=
  { no_iter := false
    no_neighbour_check := true
    wcc_tol := 1/100
    gap_tol := 1/50
    max_iter := 10
    min_neighbour_dist := 1/100
    num_strings := 8
    verbose := false }

/-- C4 (code bug evidence): with `no_neighbour_check` set the claim promises
one pass and termination regardless of `verbose`, but the `break` statement
sits inside `if(self._verbose)`, so with `verbose = False` the main loop
never exits (no fuel suffices), while with `verbose = True` it returns after
exactly one `solvePass`. -/
theorem wccCalc_silent_skip_never_terminates :
    (∀ fuel, wccCalc silentCfg (fun _ => [0]) fuel = .ok none) ∧
    wccCalc { silentCfg with verbose := true } (fun _ => [0]) 1 =
      .ok (some ((solvePass (fun _ => [0]) (initState 8)).k_points,
        (solvePass (fun _ => [0]) (initState 8)).wcc_list,
        (solvePass (fun _ => [0]) (initState 8)).gaps)) := by
  constructor
  · intro fuel
    unfold wccCalc
    rw [if_neg (by decide), if_neg (by decide)]
    rw [wccLoop_none_of_silent_skip silentCfg (fun _ => [0]) rfl rfl fuel
      (initState silentCfg.num_strings) (by decide)]
  · unfold wccCalc
    rw [if_neg (by decide), if_neg (by decide)]
    have h1 : wccLoop { silentCfg with verbose := true } (fun _ => [0]) 1
        (initState { silentCfg with verbose := true }.num_strings) =
        some (solvePass (fun _ => [0]) (initState 8)) := by
      unfold wccLoop
      rw [if_neg (by decide)]
      rfl
    rw [h1]

/-- C10: for every configuration with `2 ≤ num_strings < 8`, `wcc_calc`
raises `NameError` — before any state initialisation or per-line computation
— because the `warnings.warn` recommendation call refers to the name
`warnings`, which the import block never binds; the call does not merely
warn and proceed. -/
theorem wccCalc_nameError_for_small_num_strings (cfg : Config) (solver : ℚ → List ℚ)
    (fuel : ℕ) (h2 : 2 ≤ cfg.num_strings) (h8 : cfg.num_strings < 8) :
    wccCalc cfg solver fuel = .error .nameError := by
  unfold wccCalc
  rw [if_neg (by omega), if_pos ⟨h8, by decide⟩]

/-- Witness for C10 at `num_strings = 5`. -/
theorem wccCalc_nameError_witness :
    2 ≤ (5 : ℕ) ∧ (5 : ℕ) < 8 ∧
    wccCalc { silentCfg with num_strings := 5 } (fun _ => [0]) 3 = .error .nameError :=
  ⟨by decide, by decide,
    wccCalc_nameError_for_small_num_strings { silentCfg with num_strings := 5 }
      (fun _ => [0]) 3 (by decide) (by decide)⟩

/-- Well-formedness of the parallel state lists, asserted by the source
itself after every insertion:

    assert len(self._k_points) == len(self._wcc_list)
    assert len(self._k_points) - 1 == len(self._neighbour_check)
    assert len(self._k_points) == len(self._string_status)
    assert len(self._k_points) == len(self._gaps)
-/
def WF (s : PlaneState) : Prop :=
  s.neighbour_check.length + 1 = s.k_points.length ∧
  s.wcc_list.length = s.k_points.length ∧
  s.gaps.length = s.k_points.length ∧
  s.string_status.length = s.k_points.length

/-- Every line of the state has been solved (its `_string_status` is set). -/
def allSolved (s : PlaneState) : Prop :=
  ∀ j, j < s.string_status.length → s.string_status.getD j false = true

theorem WF_initState (n : ℕ) (hn : 1 ≤ n) : WF (initState n) := by
  refine ⟨?_, ?_, ?_, ?_⟩ <;>
    simp only [initState, List.length_replicate, List.length_map, List.length_range]
  omega

theorem WF_solveLine (f : ℚ → List ℚ) (s : PlaneState) (i : ℕ) (h : WF s) :
    WF (solveLine f s i) := by
  obtain ⟨h1, h2, h3, h4⟩ := h
  unfold solveLine
  split
  · exact ⟨h1, h2, h3, h4⟩
  · exact ⟨h1, by simpa [List.length_set] using h2, by simpa [List.length_set] using h3,
      by simpa [List.length_set] using h4⟩

theorem foldl_solveLine_WF (f : ℚ → List ℚ) (L : List ℕ) :
    ∀ s : PlaneState, WF s → WF (L.foldl (solveLine f) s) := by
  induction L with
  | nil => intro s h; exact h
  | cons a L ih =>
    intro s h
    rw [List.foldl_cons]
    exact ih _ (WF_solveLine f s a h)

theorem WF_solvePass (f : ℚ → List ℚ) (s : PlaneState) (h : WF s) : WF (solvePass f s) :=
  foldl_solveLine_WF f _ s h

theorem solveLine_status_length (f : ℚ → List ℚ) (s : PlaneState) (i : ℕ) :
    (solveLine f s i).string_status.length = s.string_status.length := by
  unfold solveLine
  split
  · rfl
  · simp [List.length_set]

theorem solveLine_status_true (f : ℚ → List ℚ) (s : PlaneState) (i : ℕ)
    (hi : i < s.string_status.length) :
    (solveLine f s i).string_status.getD i false = true := by
  unfold solveLine
  split
  · next h => exact h
  · show (s.string_status.set i true).getD i false = true
    rw [List.getD_eq_getElem _ _ (by simpa [List.length_set] using hi), List.getElem_set]
    simp

theorem solveLine_status_mono (f : ℚ → List ℚ) (s : PlaneState) (i j : ℕ)
    (h : s.string_status.getD j false = true) :
    (solveLine f s i).string_status.getD j false = true := by
  unfold solveLine
  split
  · exact h
  · show (s.string_status.set i true).getD j false = true
    by_cases hj : j < s.string_status.length
    · rw [List.getD_eq_getElem _ _ (by simpa [List.length_set] using hj), List.getElem_set]
      rw [List.getD_eq_getElem _ _ hj] at h
      split <;> simp [h]
    · rw [List.getD_eq_default _ _ (not_lt.mp hj)] at h
      exact absurd h (by simp)

theorem foldl_solveLine_status_length (f : ℚ → List ℚ) (L : List ℕ) :
    ∀ s : PlaneState, (L.foldl (solveLine f) s).string_status.length = s.string_status.length := by
  induction L with
  | nil => intro s; rfl
  | cons a L ih =>
    intro s
    rw [List.foldl_cons, ih, solveLine_status_length]

theorem foldl_solveLine_status_mono (f : ℚ → List ℚ) (L : List ℕ) :
    ∀ (s : PlaneState) (j : ℕ), s.string_status.getD j false = true →
      (L.foldl (solveLine f) s).string_status.getD j false = true := by
  induction L with
  | nil => intro s j h; exact h
  | cons a L ih =>
    intro s j h
    rw [List.foldl_cons]
    exact ih _ j (solveLine_status_mono f s a j h)

theorem foldl_solveLine_status_mem (f : ℚ → List ℚ) (L : List ℕ) :
    ∀ (s : PlaneState) (j : ℕ), j ∈ L → j < s.string_status.length →
      (L.foldl (solveLine f) s).string_status.getD j false = true := by
  induction L with
  | nil => intro s j h; simp at h
  | cons a L ih =>
    intro s j hmem hlen
    rw [List.foldl_cons]
    rcases List.mem_cons.mp hmem with rfl | hmem2
    · exact foldl_solveLine_status_mono f L _ j (solveLine_status_true f s j hlen)
    · exact ih _ j hmem2 (by rwa [solveLine_status_length])

theorem allSolved_solvePass (f : ℚ → List ℚ) (s : PlaneState) (h : WF s) :
    allSolved (solvePass f s) := by
  intro j hj
  obtain ⟨h1, h2, h3, h4⟩ := h
  have hlen : (solvePass f s).string_status.length = s.string_status.length :=
    foldl_solveLine_status_length f _ s
  unfold solvePass
  exact foldl_solveLine_status_mem f _ s j
    (List.mem_range.mpr (by omega)) (by omega)

theorem markPair_WF (s : PlaneState) (i : ℕ) (h : WF s) : WF (markPair s i) := by
  obtain ⟨h1, h2, h3, h4⟩ := h
  exact ⟨by simpa [markPair, List.length_set] using h1, h2, h3, h4⟩

theorem insertLine_WF (s : PlaneState) (i : ℕ) (h : WF s)
    (hi : i < s.neighbour_check.length) : WF (insertLine s i) := by
  obtain ⟨h1, h2, h3, h4⟩ := h
  unfold insertLine
  refine ⟨?_, ?_, ?_, ?_⟩
  · rw [List.length_insertIdx (i + 1) s.neighbour_check (by omega),
      List.length_insertIdx (i + 1) s.k_points (by omega)]
    omega
  · rw [List.length_insertIdx (i + 1) s.wcc_list (by omega),
      List.length_insertIdx (i + 1) s.k_points (by omega)]
    omega
  · rw [List.length_insertIdx (i + 1) s.gaps (by omega),
      List.length_insertIdx (i + 1) s.k_points (by omega)]
    omega
  · rw [List.length_insertIdx (i + 1) s.string_status (by omega),
      List.length_insertIdx (i + 1) s.k_points (by omega)]
    omega

theorem insertLine_k_length (s : PlaneState) (i : ℕ) (h : WF s)
    (hi : i < s.neighbour_check.length) :
    (insertLine s i).k_points.length = s.k_points.length + 1 := by
  obtain ⟨h1, _, _, _⟩ := h
  unfold insertLine
  rw [List.length_insertIdx (i + 1) s.k_points (by omega)]

theorem checkNeighboursFrom_WF_le (cfg : Config) :
    ∀ (d : ℕ) (s : PlaneState) (i : ℕ), s.neighbour_check.length - i ≤ d → WF s →
      WF (checkNeighboursFrom cfg s i).1 ∧
      s.k_points.length ≤ (checkNeighboursFrom cfg s i).1.k_points.length ∧
      (checkNeighboursFrom cfg s i).1.k_points.length ≤ s.k_points.length + 1 := by
  intro d
  induction d with
  | zero =>
    intro s i hd hwf
    unfold checkNeighboursFrom
    rw [dif_neg (by omega)]
    exact ⟨hwf, le_refl _, Nat.le_succ _⟩
  | succ d ih =>
    intro s i hd hwf
    unfold checkNeighboursFrom
    by_cases hi : i < s.neighbour_check.length
    · rw [dif_pos hi]
      by_cases hflag : s.neighbour_check.getD i false = true
      · rw [if_pos hflag]
        exact ih s (i + 1) (by omega) hwf
      · rw [if_neg hflag]
        by_cases hst : (s.string_status.getD i false && s.string_status.getD (i + 1) false) = true
        · rw [if_pos hst]
          by_cases hchk : check_single_neighbour cfg.gap_tol s i (i + 1) = true
          · rw [if_pos hchk]
            exact ih (markPair s i) (i + 1)
              (by simp only [markPair, List.length_set]; omega) (markPair_WF s i hwf)
          · rw [if_neg hchk]
            by_cases hdist : s.k_points.getD (i + 1) 0 - s.k_points.getD i 0
                < cfg.min_neighbour_dist
            · rw [if_pos hdist]
              exact ih (markPair s i) (i + 1)
                (by simp only [markPair, List.length_set]; omega) (markPair_WF s i hwf)
            · rw [if_neg hdist]
              refine ⟨insertLine_WF s i hwf hi,
                by rw [insertLine_k_length s i hwf hi]; omega,
                by rw [insertLine_k_length s i hwf hi]⟩
        · rw [if_neg hst]
          exact ⟨hwf, le_refl _, Nat.le_succ _⟩
    · rw [dif_neg hi]
      exact ⟨hwf, le_refl _, Nat.le_succ _⟩

theorem wccLoop_WF (cfg : Config) (f : ℚ → List ℚ) :
    ∀ (fuel : ℕ) (s s2 : PlaneState), WF s → wccLoop cfg f fuel s = some s2 →
      WF s2 ∧ s.k_points.length ≤ s2.k_points.length := by
  intro fuel
  induction fuel with
  | zero =>
    intro s s2 _ h
    exact absurd h (by simp [wccLoop])
  | succ n ih =>
    intro s s2 hwf h
    unfold wccLoop at h
    by_cases hall : s.neighbour_check.all (fun b => b) = true
    · rw [if_pos hall] at h
      obtain rfl := Option.some.inj h
      exact ⟨hwf, le_refl _⟩
    · rw [if_neg hall] at h
      by_cases hnc : cfg.no_neighbour_check = true
      · rw [hnc] at h
        simp only [Bool.not_true, Bool.false_eq_true, if_false] at h
        by_cases hv : cfg.verbose = true
        · rw [if_pos hv] at h
          obtain rfl := Option.some.inj h
          exact ⟨WF_solvePass f s hwf, by rw [solvePass_k_points]⟩
        · rw [if_neg hv] at h
          have := ih (solvePass f s) s2 (WF_solvePass f s hwf) h
          exact ⟨this.1, by rw [← solvePass_k_points f s]; exact this.2⟩
      · rw [Bool.not_eq_true] at hnc
        rw [hnc] at h
        simp only [Bool.not_false, if_true] at h
        have hwf1 : WF (solvePass f s) := WF_solvePass f s hwf
        have hchk := checkNeighboursFrom_WF_le cfg
          (solvePass f s).neighbour_check.length (solvePass f s) 0 (by omega) hwf1
        have := ih _ s2 hchk.1 h
        refine ⟨this.1, ?_⟩
        calc s.k_points.length = (solvePass f s).k_points.length :=
            congrArg List.length (solvePass_k_points f s).symm
          _ ≤ (checkNeighbours cfg (solvePass f s)).1.k_points.length := hchk.2.1
          _ ≤ s2.k_points.length := this.2

/-- C9: the state-shape invariant of `wcc_calc` — after initialisation,
after each line is solved, and after each `_check_neighbours` scan
(insertions included), the neighbour-flag list is exactly one shorter than
`k_points` while `wcc_list`, `gaps` and `string_status` all have the same
length as `k_points`; moreover the per-line pass never changes `k_points`,
the neighbour scan never shortens it, and a terminating run of the main loop
never shrinks it — refinement only inserts lines. -/
theorem wcc_state_lengths_invariant :
    (∀ n, 1 ≤ n → WF (initState n)) ∧
    (∀ (f : ℚ → List ℚ) (s : PlaneState) (i : ℕ), WF s →
      WF (solveLine f s i) ∧ (solveLine f s i).k_points = s.k_points) ∧
    (∀ (f : ℚ → List ℚ) (s : PlaneState), WF s →
      WF (solvePass f s) ∧ (solvePass f s).k_points = s.k_points) ∧
    (∀ (cfg : Config) (s : PlaneState) (i : ℕ), WF s →
      WF (checkNeighboursFrom cfg s i).1 ∧
      s.k_points.length ≤ (checkNeighboursFrom cfg s i).1.k_points.length) ∧
    (∀ (cfg : Config) (f : ℚ → List ℚ) (fuel : ℕ) (s s2 : PlaneState),
      WF s → wccLoop cfg f fuel s = some s2 →
      WF s2 ∧ s.k_points.length ≤ s2.k_points.length) := by
  refine ⟨WF_initState, ?_, ?_, ?_, wccLoop_WF⟩
  · intro f s i h
    exact ⟨WF_solveLine f s i h, solveLine_k_points f s i⟩
  · intro f s h
    exact ⟨WF_solvePass f s h, solvePass_k_points f s⟩
  · intro cfg s i h
    have := checkNeighboursFrom_WF_le cfg s.neighbour_check.length s i (by omega) h
    exact ⟨this.1, this.2.1⟩

/-- Witness for C9 at `n = 3`, a concrete solver and the concrete states it
produces. -/
theorem wcc_state_lengths_invariant_witness :
    (1 ≤ 3 ∧ WF (initState 3)) ∧
    WF (solvePass (fun _ => [0]) (initState 3)) ∧
    WF (checkNeighboursFrom silentCfg (initState 3) 0).1 :=
  ⟨⟨by decide, wcc_state_lengths_invariant.1 3 (by decide)⟩,
    (wcc_state_lengths_invariant.2.2.1 (fun _ => [0]) (initState 3)
      (wcc_state_lengths_invariant.1 3 (by decide))).1,
    (wcc_state_lengths_invariant.2.2.2.1 silentCfg (initState 3) 0
      (wcc_state_lengths_invariant.1 3 (by decide))).1⟩

/-- Capacity of a pair for future bisections, as a function of
`⌊spacing / min_neighbour_dist⌋`: `0` when the spacing is already below the
bisection floor, and otherwise one insertion plus the capacities of the two
half-spacing pairs it creates. -/
def bisectCap (n : ℕ) : ℕ :=
  if n = 0 then 0 else 2 * bisectCap (n / 2) + 1
termination_by n
decreasing_by omega

/-- Scaled spacing `⌊d / m⌋` (clamped to ℕ) used to index `bisectCap`. -/
def capOf (m d : ℚ) : ℕ := (⌊d / m⌋).toNat

theorem floor_half (y : ℚ) : ⌊y / 2⌋ = ⌊y⌋ / 2 := by
  have h1 := Int.floor_le y
  have h2 := Int.lt_floor_add_one y
  have ha : 2 * (⌊y⌋ / 2) ≤ ⌊y⌋ := by omega
  have hb : ⌊y⌋ + 1 ≤ 2 * (⌊y⌋ / 2) + 2 := by omega
  rw [Int.floor_eq_iff]
  constructor
  · have hc : ((2 * (⌊y⌋ / 2) : ℤ) : ℚ) ≤ ((⌊y⌋ : ℤ) : ℚ) := by exact_mod_cast ha
    push_cast at hc
    linarith
  · have hc : ((⌊y⌋ + 1 : ℤ) : ℚ) ≤ ((2 * (⌊y⌋ / 2) + 2 : ℤ) : ℚ) := by exact_mod_cast hb
    push_cast at hc
    linarith

theorem capOf_half (m d : ℚ) : capOf m (d / 2) = capOf m d / 2 := by
  unfold capOf
  have h : d / 2 / m = d / m / 2 := by ring
  rw [h, floor_half]
  omega

theorem capOf_pos (m d : ℚ) (hm : 0 < m) (hd : m ≤ d) : 1 ≤ capOf m d := by
  unfold capOf
  have h1 : (1 : ℤ) ≤ ⌊d / m⌋ := by
    rw [Int.le_floor]
    push_cast
    rw [one_le_div hm]
    exact hd
  omega

/-- Termination measure of the Surface Convergence Engine: walk the
neighbour-flag list alongside the `k_points` list; a checked pair weighs `0`,
an unchecked pair of spacing `d` weighs `1 + 2 * bisectCap (capOf m d)`. -/
def measureAux (m : ℚ) : List Bool → List ℚ → ℕ
  | f :: fs, a :: b :: rest =>
      (if f then 0 else 1 + 2 * bisectCap (capOf m (b - a))) + measureAux m fs (b :: rest)
  | _, _ => 0

/-- Termination measure of a surface state. -/
def surfMeasure (m : ℚ) (s : PlaneState) : ℕ :=
  measureAux m s.neighbour_check s.k_points

theorem measureAux_set_true (m : ℚ) :
    ∀ (i : ℕ) (fs : List Bool) (ks : List ℚ), i < fs.length → fs.length < ks.length →
      fs.getD i false = false →
      measureAux m (fs.set i true) ks + 1 ≤ measureAux m fs ks := by
  intro i
  induction i with
  | zero =>
    intro fs ks hi hlen hflag
    match fs, ks with
    | f :: fs, a :: b :: rest =>
      simp only [List.getD_cons_zero] at hflag
      subst hflag
      rw [List.set_cons_zero]
      simp only [measureAux, if_true, if_false, Bool.false_eq_true]
      omega
    | f :: fs, [a] =>
      simp at hlen
    | f :: fs, [] => simp at hlen
  | succ i ih =>
    intro fs ks hi hlen hflag
    match fs, ks with
    | f :: fs, a :: b :: rest =>
      simp only [List.getD_cons_succ] at hflag
      rw [List.set_cons_succ]
      simp only [measureAux]
      have htail := ih fs (b :: rest) (by simpa using hi)
        (by simp only [List.length_cons] at hlen ⊢; omega) hflag
      omega
    | f :: fs, [a] =>
      simp at hlen
    | f :: fs, [] => simp at hlen

theorem measureAux_insert (m : ℚ) :
    ∀ (i : ℕ) (fs : List Bool) (ks : List ℚ), i < fs.length → fs.length < ks.length →
      fs.getD i false = false → 0 < m → m ≤ ks.getD (i + 1) 0 - ks.getD i 0 →
      measureAux m (fs.insertIdx (i + 1) false)
          (ks.insertIdx (i + 1) ((ks.getD i 0 + ks.getD (i + 1) 0) / 2)) + 1 =
        measureAux m fs ks := by
  intro i
  induction i with
  | zero =>
    intro fs ks hi hlen hflag hm hd
    match fs, ks with
    | f :: fs, a :: b :: rest =>
      simp only [List.getD_cons_zero] at hflag
      subst hflag
      simp only [List.getD_cons_zero, List.getD_cons_succ] at hd
      rw [List.insertIdx_succ_cons, List.insertIdx_zero,
        List.insertIdx_succ_cons, List.insertIdx_zero]
      simp only [List.getD_cons_zero, List.getD_cons_succ, measureAux, if_false,
        Bool.false_eq_true]
      have hmid1 : (a + b) / 2 - a = (b - a) / 2 := by ring
      have hmid2 : b - (a + b) / 2 = (b - a) / 2 := by ring
      rw [hmid1, hmid2, capOf_half]
      have hcap : 1 ≤ capOf m (b - a) := capOf_pos m (b - a) hm hd
      have hrec : bisectCap (capOf m (b - a)) = 2 * bisectCap (capOf m (b - a) / 2) + 1 := by
        rw [bisectCap]
        rw [if_neg (by omega)]
      omega
    | f :: fs, [a] =>
      simp at hlen
    | f :: fs, [] => simp at hlen
  | succ i ih =>
    intro fs ks hi hlen hflag hm hd
    match fs, ks with
    | f :: fs, a :: b :: rest =>
      simp only [List.getD_cons_succ] at hflag hd ⊢
      rw [List.insertIdx_succ_cons, List.insertIdx_succ_cons, List.insertIdx_succ_cons]
      simp only [measureAux]
      have htail := ih fs (b :: rest) (by simpa using hi)
        (by simp only [List.length_cons] at hlen ⊢; omega) hflag hm hd
      simp only [List.getD_cons_succ] at htail
      rw [List.insertIdx_succ_cons] at htail
      omega
    | f :: fs, [a] =>
      simp at hlen
    | f :: fs, [] => simp at hlen

theorem measureAux_pos (m : ℚ) :
    ∀ (j : ℕ) (fs : List Bool) (ks : List ℚ), j < fs.length → fs.length < ks.length →
      fs.getD j false = false → 1 ≤ measureAux m fs ks := by
  intro j
  induction j with
  | zero =>
    intro fs ks hj hlen hflag
    match fs, ks with
    | f :: fs, a :: b :: rest =>
      simp only [List.getD_cons_zero] at hflag
      subst hflag
      simp only [measureAux, if_false, Bool.false_eq_true]
      omega
    | f :: fs, [a] =>
      simp at hlen
    | f :: fs, [] => simp at hlen
  | succ j ih =>
    intro fs ks hj hlen hflag
    match fs, ks with
    | f :: fs, a :: b :: rest =>
      simp only [List.getD_cons_succ] at hflag
      have := ih fs (b :: rest) (by simpa using hj)
        (by simp only [List.length_cons] at hlen ⊢; omega) hflag
      simp only [measureAux]
      omega
    | f :: fs, [a] =>
      simp at hlen
    | f :: fs, [] => simp at hlen

theorem surfMeasure_solvePass (m : ℚ) (f : ℚ → List ℚ) (s : PlaneState) :
    surfMeasure m (solvePass f s) = surfMeasure m s := by
  unfold surfMeasure
  rw [solvePass_neighbour_check, solvePass_k_points]

theorem checkNeighboursFrom_measure (cfg : Config) (hm : 0 < cfg.min_neighbour_dist) :
    ∀ (d : ℕ) (s : PlaneState) (i : ℕ), s.neighbour_check.length - i ≤ d → WF s →
      surfMeasure cfg.min_neighbour_dist (checkNeighboursFrom cfg s i).1
          ≤ surfMeasure cfg.min_neighbour_dist s ∧
      (allSolved s →
        (∃ j, i ≤ j ∧ j < s.neighbour_check.length ∧
          s.neighbour_check.getD j false = false) →
        surfMeasure cfg.min_neighbour_dist (checkNeighboursFrom cfg s i).1
          < surfMeasure cfg.min_neighbour_dist s) := by
  intro d
  induction d with
  | zero =>
    intro s i hd hwf
    unfold checkNeighboursFrom
    rw [dif_neg (by omega)]
    exact ⟨le_refl _, fun _ hex => absurd hex (by push_neg; intro j hj1 hj2; omega)⟩
  | succ d ih =>
    intro s i hd hwf
    obtain ⟨hw1, hw2, hw3, hw4⟩ := hwf
    unfold checkNeighboursFrom
    by_cases hi : i < s.neighbour_check.length
    · rw [dif_pos hi]
      by_cases hflag : s.neighbour_check.getD i false = true
      · rw [if_pos hflag]
        have hrec := ih s (i + 1) (by omega) ⟨hw1, hw2, hw3, hw4⟩
        refine ⟨hrec.1, fun hsolv hex => ?_⟩
        obtain ⟨j, hj1, hj2, hj3⟩ := hex
        have hji : j ≠ i := fun h => by rw [h, hflag] at hj3; exact Bool.noConfusion hj3
        exact hrec.2 hsolv ⟨j, by omega, hj2, hj3⟩
      · rw [if_neg hflag]
        rw [Bool.not_eq_true] at hflag
        by_cases hst : (s.string_status.getD i false && s.string_status.getD (i + 1) false) = true
        · rw [if_pos hst]
          have hmark : surfMeasure cfg.min_neighbour_dist (markPair s i) + 1
              ≤ surfMeasure cfg.min_neighbour_dist s := by
            unfold surfMeasure markPair
            exact measureAux_set_true cfg.min_neighbour_dist i
              s.neighbour_check s.k_points hi (by omega) hflag
          have hmark_wf : WF (markPair s i) := markPair_WF s i ⟨hw1, hw2, hw3, hw4⟩
          by_cases hchk : check_single_neighbour cfg.gap_tol s i (i + 1) = true
          · rw [if_pos hchk]
            have hrec := (ih (markPair s i) (i + 1)
              (by simp only [markPair, List.length_set]; omega) hmark_wf).1
            exact ⟨by omega, fun _ _ => by omega⟩
          · rw [if_neg hchk]
            by_cases hdist : s.k_points.getD (i + 1) 0 - s.k_points.getD i 0
                < cfg.min_neighbour_dist
            · rw [if_pos hdist]
              have hrec := (ih (markPair s i) (i + 1)
                (by simp only [markPair, List.length_set]; omega) hmark_wf).1
              exact ⟨by omega, fun _ _ => by omega⟩
            · rw [if_neg hdist]
              have hins : surfMeasure cfg.min_neighbour_dist (insertLine s i) + 1
                  = surfMeasure cfg.min_neighbour_dist s := by
                unfold surfMeasure insertLine
                exact measureAux_insert cfg.min_neighbour_dist i
                  s.neighbour_check s.k_points hi (by omega) hflag hm (not_lt.mp hdist)
              refine ⟨?_, fun _ _ => ?_⟩
              · show surfMeasure cfg.min_neighbour_dist (insertLine s i) ≤ _
                omega
              · show surfMeasure cfg.min_neighbour_dist (insertLine s i) < _
                omega
        · rw [if_neg hst]
          refine ⟨le_refl _, fun hsolv hex => absurd hst ?_⟩
          push_neg
          rw [Bool.and_eq_true]
          exact ⟨hsolv i (by omega), hsolv (i + 1) (by omega)⟩
    · rw [dif_neg hi]
      exact ⟨le_refl _, fun _ hex => absurd hex (by push_neg; intro j hj1 hj2; omega)⟩

theorem wccLoop_terminates (cfg : Config) (solver : ℚ → List ℚ)
    (hnc : cfg.no_neighbour_check = false) (hm : 0 < cfg.min_neighbour_dist) :
    ∀ (n : ℕ) (s : PlaneState), WF s → surfMeasure cfg.min_neighbour_dist s < n →
      ∃ s2, wccLoop cfg solver n s = some s2 := by
  intro n
  induction n with
  | zero => intro s _ h; omega
  | succ n ih =>
    intro s hwf hlt
    by_cases hall : s.neighbour_check.all (fun b => b) = true
    · exact ⟨s, by unfold wccLoop; rw [if_pos hall]⟩
    · have hex : ∃ j, j < s.neighbour_check.length ∧
          s.neighbour_check.getD j false = false := by
        by_contra hcon
        push_neg at hcon
        refine hall (List.all_eq_true.mpr fun x hx => ?_)
        obtain ⟨j, hj, rfl⟩ := List.mem_iff_getElem.mp hx
        have h2 := hcon j hj
        rw [List.getD_eq_getElem _ _ hj] at h2
        simpa using h2
      obtain ⟨j, hj, hjflag⟩ := hex
      have hwf1 := WF_solvePass solver s hwf
      have hsolved := allSolved_solvePass solver s hwf
      have hflags := solvePass_neighbour_check solver s
      have hmeq := surfMeasure_solvePass cfg.min_neighbour_dist solver s
      have hchk := checkNeighboursFrom_measure cfg hm
        ((solvePass solver s).neighbour_check.length) (solvePass solver s) 0
        (by omega) hwf1
      have hstrict := hchk.2 hsolved
        ⟨j, by omega, by rw [hflags]; exact hj, by rw [hflags]; exact hjflag⟩
      have hwf2 := (checkNeighboursFrom_WF_le cfg
        ((solvePass solver s).neighbour_check.length) (solvePass solver s) 0
        (by omega) hwf1).1
      obtain ⟨s2, hs2⟩ := ih (checkNeighbours cfg (solvePass solver s)).1 hwf2 (by
        unfold checkNeighbours
        omega)
      refine ⟨s2, ?_⟩
      unfold wccLoop
      rw [if_neg hall, hnc]
      simp only [Bool.not_false, if_true]
      exact hs2

/-- C7: with neighbour checks enabled and `min_neighbour_dist > 0`, the
surface loop of `wcc_calc` terminates for every (total) line solver and every
well-formed state: each `_check_neighbours` call inserts at most one line
(a pair whose spacing is below the floor is marked done instead of
bisected, and bisection halves the spacing, so the bisection-capacity
measure strictly decreases each outer iteration), hence some finite fuel
makes the loop return. -/
theorem wcc_calc_neighbour_refinement_terminates (cfg : Config) (solver : ℚ → List ℚ)
    (hnc : cfg.no_neighbour_check = false) (hm : 0 < cfg.min_neighbour_dist) :
    (∀ (s : PlaneState) (i : ℕ), WF s →
      (checkNeighboursFrom cfg s i).1.k_points.length ≤ s.k_points.length + 1) ∧
    (∀ s : PlaneState, WF s → ∃ fuel s2, wccLoop cfg solver fuel s = some s2) := by
  constructor
  · intro s i hwf
    exact (checkNeighboursFrom_WF_le cfg s.neighbour_check.length s i (by omega) hwf).2.2
  · intro s hwf
    exact ⟨surfMeasure cfg.min_neighbour_dist s + 1,
      wccLoop_terminates cfg solver hnc hm _ s hwf (by omega)⟩

/-- Witness for C7: the default-like configuration with neighbour checks on,
`min_neighbour_dist = 1/100 > 0`, starting from the initial state with
8 strings. -/
theorem wcc_calc_neighbour_refinement_terminates_witness :
    ({ silentCfg with no_neighbour_check := false }).no_neighbour_check = false ∧
    0 < ({ silentCfg with no_neighbour_check := false }).min_neighbour_dist ∧
    WF (initState 8) ∧
    (∃ fuel s2, wccLoop { silentCfg with no_neighbour_check := false } (fun _ => [0])
      fuel (initState 8) = some s2) := by
  refine ⟨rfl, by with_unfolding_all decide,
    ⟨by decide, by decide, by decide, by decide⟩, ?_⟩
  exact (wcc_calc_neighbour_refinement_terminates
      { silentCfg with no_neighbour_check := false } (fun _ => [0]) rfl
      (by with_unfolding_all decide)).2 (initState 8)
    ⟨by decide, by decide, by decide, by decide⟩

/-- Embedding of `Z2PackPlane._sgng(z, zplus, x)`:
`np.copysign(1, sin(2π(zplus-z)) + sin(2π(x-zplus)) + sin(2π(z-x)))`,
which is `-1` when the argument is negative and `+1` otherwise. -/
noncomputable def sgng (z zplus x : ℝ) : ℝ :=
  if Real.sin (2 * Real.pi * (zplus - z)) + Real.sin (2 * Real.pi * (x - zplus))
      + Real.sin (2 * Real.pi * (z - x)) < 0 then -1 else 1

/-- Embedding of `Z2PackPlane.invariant()`:

    inv = 1
    for i in range(0, len(self._wcc_list)-1):
        for j in range(0, len(self._wcc_list[0])):
            inv *= self._sgng(self._gaps[i], self._gaps[i+1], self._wcc_list[i+1][j])
    return 1 if inv == -1 else 0

Note the inner bound: `j` ranges over the WCC count of the FIRST line while
indexing into line `i+1`.  List indexing is modelled with `getElem?`; an
out-of-range access (Python `IndexError`) makes the result `none`. -/
noncomputable def invariant (wcc : List (List ℝ)) (gaps : List ℝ) : Option ℤ := do
  let inv ← (List.range (wcc.length - 1)).foldlM (fun acc i => do
    let w0 ← wcc[0]?
    (List.range w0.length).foldlM (fun acc2 j => do
      let g ← gaps[i]?
      let g1 ← gaps[i + 1]?
      let wi ← wcc[i + 1]?
      let wj ← wi[j]?
      pure (acc2 * sgng g g1 wj)) acc) (1 : ℝ)
  pure (if inv = -1 then 1 else 0)

/-- C6 claim formula: product of `sgng` over all consecutive pairs `i` and
over the WCC indices `j` of line `i + 1` (not of line 0); result `1` when
the product is `-1`, else `0`. -/
noncomputable def invariantSpec (wcc : List (List ℝ)) (gaps : List ℝ) : ℤ :=
  if ((List.range (wcc.length - 1)).map (fun i =>
      ((List.range (wcc.getD (i + 1) []).length).map (fun j =>
        sgng (gaps.getD i 0) (gaps.getD (i + 1) 0)
          ((wcc.getD (i + 1) []).getD j 0))).prod)).prod = -1
  then 1 else 0

theorem foldlM_option_mul (g : ℕ → ℝ) :
    ∀ (L : List ℕ) (step : ℝ → ℕ → Option ℝ),
      (∀ (acc : ℝ) (j : ℕ), j ∈ L → step acc j = some (acc * g j)) →
      ∀ acc : ℝ, L.foldlM step acc = some (acc * (L.map g).prod) := by
  intro L
  induction L with
  | nil =>
    intro step h acc
    simp
  | cons a L ih =>
    intro step h acc
    rw [List.foldlM_cons, h acc a (List.mem_cons_self a L)]
    show (L.foldlM step (acc * g a)) = _
    rw [ih step (fun acc2 j hj => h acc2 j (List.mem_cons_of_mem a hj)) (acc * g a)]
    simp [mul_assoc]

theorem invariant_eq_of_bounds (wcc : List (List ℝ)) (gaps : List ℝ)
    (hg : wcc.length ≤ gaps.length)
    (hw : ∀ i, i + 1 < wcc.length →
      (wcc.getD 0 []).length ≤ (wcc.getD (i + 1) []).length) :
    invariant wcc gaps = some (if ((List.range (wcc.length - 1)).map (fun i =>
        ((List.range (wcc.getD 0 []).length).map (fun j =>
          sgng (gaps.getD i 0) (gaps.getD (i + 1) 0)
            ((wcc.getD (i + 1) []).getD j 0))).prod)).prod = -1
      then 1 else 0) := by
  have houter : (List.range (wcc.length - 1)).foldlM (fun acc i => do
      let w0 ← wcc[0]?
      (List.range w0.length).foldlM (fun acc2 j => do
        let g ← gaps[i]?
        let g1 ← gaps[i + 1]?
        let wi ← wcc[i + 1]?
        let wj ← wi[j]?
        pure (acc2 * sgng g g1 wj)) acc) (1 : ℝ)
      = some (1 * ((List.range (wcc.length - 1)).map (fun i =>
        ((List.range (wcc.getD 0 []).length).map (fun j =>
          sgng (gaps.getD i 0) (gaps.getD (i + 1) 0)
            ((wcc.getD (i + 1) []).getD j 0))).prod)).prod) := by
    apply foldlM_option_mul
    intro acc i hi
    have hi2 : i + 1 < wcc.length := by
      have := List.mem_range.mp hi
      omega
    have h0 : 0 < wcc.length := by omega
    have hgi : i < gaps.length := by omega
    have hgi1 : i + 1 < gaps.length := by omega
    rw [List.getElem?_eq_getElem h0]
    show (List.range wcc[0].length).foldlM _ acc = _
    have hinner := foldlM_option_mul
      (fun j => sgng (gaps.getD i 0) (gaps.getD (i + 1) 0)
        ((wcc.getD (i + 1) []).getD j 0))
      (List.range wcc[0].length)
      (fun acc2 j => do
        let g ← gaps[i]?
        let g1 ← gaps[i + 1]?
        let wi ← wcc[i + 1]?
        let wj ← wi[j]?
        pure (acc2 * sgng g g1 wj))
      (by
        intro acc2 j hj
        have hjlen : j < (wcc.getD (i + 1) []).length := by
          have hj2 := List.mem_range.mp hj
          have := hw i hi2
          rw [List.getD_eq_getElem wcc [] h0] at this
          omega
        have hjlen2 : j < wcc[i + 1].length := by
          rwa [List.getD_eq_getElem wcc [] hi2] at hjlen
        rw [List.getElem?_eq_getElem hgi, List.getElem?_eq_getElem hgi1,
          List.getElem?_eq_getElem hi2]
        show (wcc[i + 1][j]?).bind _ = _
        rw [List.getElem?_eq_getElem hjlen2]
        show some (acc2 * sgng gaps[i] gaps[i + 1] wcc[i + 1][j]) =
          some (acc2 * sgng (gaps.getD i 0) (gaps.getD (i + 1) 0)
            ((wcc.getD (i + 1) []).getD j 0))
        rw [List.getD_eq_getElem gaps 0 hgi, List.getD_eq_getElem gaps 0 hgi1,
          List.getD_eq_getElem wcc [] hi2, List.getD_eq_getElem _ _ hjlen2]
      ) acc
    rw [List.getD_eq_getElem wcc [] h0]
    exact hinner
  unfold invariant
  rw [houter]
  show some _ = _
  rw [one_mul]

/-- C5 (amended): `invariant()` does not validate WCC-set cardinalities:
whenever `gaps` covers the lines and every later line has at least as many
WCC values as line 0, it returns a numeric result computed from only the
first `len(wcc_list[0])` values of each later line, silently ignoring the
surplus values; an `IndexError` can arise only when an accessed later line
is shorter than line 0. -/
theorem invariant_numeric_despite_surplus (wcc : List (List ℝ)) (gaps : List ℝ)
    (hg : wcc.length ≤ gaps.length)
    (hw : ∀ i, i + 1 < wcc.length →
      (wcc.getD 0 []).length ≤ (wcc.getD (i + 1) []).length) :
    invariant wcc gaps = some (if ((List.range (wcc.length - 1)).map (fun i =>
        ((List.range (wcc.getD 0 []).length).map (fun j =>
          sgng (gaps.getD i 0) (gaps.getD (i + 1) 0)
            ((wcc.getD (i + 1) []).getD j 0))).prod)).prod = -1
      then 1 else 0) :=
  invariant_eq_of_bounds wcc gaps hg hw

/-- Witness for the amended C5 at the unequal-cardinality input
`wcc = [[1/10], [1/5, 4/5]]`, `gaps = [1/2, 1/2]`. -/
theorem invariant_numeric_despite_surplus_witness :
    ([[(1 : ℝ)/10], [1/5, 4/5]].length ≤ ([(1 : ℝ)/2, 1/2].length)) ∧
    (invariant [[(1 : ℝ)/10], [1/5, 4/5]] [1/2, 1/2]).isSome = true :=
  ⟨by decide,
    by
      rw [invariant_numeric_despite_surplus [[(1 : ℝ)/10], [1/5, 4/5]] [1/2, 1/2]
        (by decide) (fun i hi => by
          have : i = 0 := by
            simp only [List.length_cons, List.length_nil] at hi
            omega
          subst this
          decide)]
      rfl⟩

/-- C5 (counterexample): on lines of unequal WCC cardinality
(`[[1/10], [1/5, 4/5]]`), `invariant()` does not stop with an error: it
returns a numeric result, and that result is identical to the one for the
truncated input `[[1/10], [1/5]]` — the surplus WCC value `4/5` is silently
ignored. -/
theorem invariant_silent_truncation :
    ¬ (∀ l ∈ [[(1 : ℝ)/10], [1/5, 4/5]], l.length
        = ([[(1 : ℝ)/10], [1/5, 4/5]].getD 0 []).length) ∧
    (invariant [[(1 : ℝ)/10], [1/5, 4/5]] [1/2, 1/2]).isSome = true ∧
    invariant [[(1 : ℝ)/10], [1/5, 4/5]] [1/2, 1/2]
      = invariant [[(1 : ℝ)/10], [1/5]] [1/2, 1/2] := by
  refine ⟨?_, ?_, ?_⟩
  · intro h
    have := h [1/5, 4/5] (by simp)
    simp at this
  · rfl
  · rfl

/-- C6: under the precondition that all lines have the same WCC-set
cardinality (and `gaps` covers the lines), `invariant()` returns `1`
exactly when the product of `sgng(gap_i, gap_{i+1}, wcc_{i+1,j})` over all
consecutive pairs `i` and all WCC indices `j` of line `i+1` equals `-1`,
and `0` otherwise. -/
theorem invariant_eq_spec_of_equal_cardinality (wcc : List (List ℝ)) (gaps : List ℝ)
    (hg : wcc.length ≤ gaps.length)
    (hcard : ∀ l ∈ wcc, l.length = (wcc.getD 0 []).length) :
    invariant wcc gaps = some (invariantSpec wcc gaps) := by
  have hmem : ∀ i, i + 1 < wcc.length → wcc.getD (i + 1) [] ∈ wcc := by
    intro i hi
    rw [List.getD_eq_getElem wcc [] hi]
    exact List.getElem_mem hi
  rw [invariant_eq_of_bounds wcc gaps hg
    (fun i hi => le_of_eq (hcard _ (hmem i hi)).symm)]
  unfold invariantSpec
  have hmap : (List.range (wcc.length - 1)).map (fun i =>
      ((List.range (wcc.getD 0 []).length).map (fun j =>
        sgng (gaps.getD i 0) (gaps.getD (i + 1) 0)
          ((wcc.getD (i + 1) []).getD j 0))).prod) =
    (List.range (wcc.length - 1)).map (fun i =>
      ((List.range (wcc.getD (i + 1) []).length).map (fun j =>
        sgng (gaps.getD i 0) (gaps.getD (i + 1) 0)
          ((wcc.getD (i + 1) []).getD j 0))).prod) := by
    apply List.map_congr_left
    intro i hi
    have hi2 : i + 1 < wcc.length := by
      have := List.mem_range.mp hi
      omega
    rw [hcard _ (hmem i hi2)]
  rw [hmap]

/-- Witness for C6 at `wcc = [[1/10], [3/5]]`, `gaps = [1/4, 3/4]`. -/
theorem invariant_eq_spec_witness :
    ([[(1 : ℝ)/10], [3/5]].length ≤ ([(1 : ℝ)/4, 3/4].length)) ∧
    (∀ l ∈ [[(1 : ℝ)/10], [3/5]], l.length = ([[(1 : ℝ)/10], [3/5]].getD 0 []).length) ∧
    invariant [[(1 : ℝ)/10], [3/5]] [1/4, 3/4]
      = some (invariantSpec [[(1 : ℝ)/10], [3/5]] [1/4, 3/4]) :=
  ⟨by decide, by decide,
    invariant_eq_spec_of_equal_cardinality [[(1 : ℝ)/10], [3/5]] [1/4, 3/4]
      (by decide) (by decide)⟩

/-- C1 (code bug evidence): at `gap_tol = 1/50`, `gap = 1/2`, `wcc = [49/100]`
the circular distance between the gap and the WCC is `1/100 < gap_tol`, so per
the claim the neighbour check must fail; the code nevertheless returns `true`
because both arguments of its `min` are the same expression `(w - gap) mod 1`
(the second was evidently meant to be the reversed direction). -/
theorem check_single_direction_not_circular :
    check_single_direction (1/50) [49/100] (1/2) = true ∧
    min (Int.fract ((49 : ℚ)/100 - 1/2)) (Int.fract ((1 : ℚ)/2 - 49/100)) < 1/50 := by
  constructor
  · with_unfolding_all decide
  · with_unfolding_all decide

end Z2Pack
